import Mathlib

/-!
Verification of the local adaptive thresholding engine and the iterative
minimum-cross-entropy thresholder of `cucim.skimage.filters.thresholding`.

The definitions below are shallow embeddings of the Python source in
`src/python/cucim/src/cucim/skimage/filters/thresholding.py`.  Pixel values
are modelled as rationals where the source only compares and averages them
(degenerate-input handling, tolerance policy, initial-guess resolution,
hysteresis thresholding) and as reals where the source takes logarithms or
square roots (the Li iteration body, the windowed mean/std estimator).
Helpers imported by the source from sibling modules that are not part of the
sources under verification (`_validate_window_size`, `integral_image`,
`_correlate_sparse`, the connected-component labeller) are modelled from the
specification and marked as such in their doc comments.
-/

/-! ## Floating-point-like pixel values (rational carrier)

`threshold_li` filters NaN and infinite values before iterating; those
sentinel values are modelled explicitly. -/

/-- A pixel value as seen by `threshold_li`: NaN, `+inf`, `-inf`, or a finite
number (modelled as a rational). -/
inductive FVal where
  | nan : FVal
  | posInf : FVal
  | negInf : FVal
  | fin (q : ℚ) : FVal
deriving DecidableEq

/-- `cp.isnan` on a single value. -/
def FVal.isNan : FVal → Bool
  | .nan => true
  | _ => false

/-- `cp.isfinite` on a single value. -/
def FVal.isFinite : FVal → Bool
  | .fin _ => true
  | _ => false

/-- IEEE-style equality test `==`: NaN compares unequal to everything,
infinities compare equal to themselves. -/
def feq : FVal → FVal → Bool
  | .posInf, .posInf => true
  | .negInf, .negInf => true
  | .fin a, .fin b => decide (a = b)
  | _, _ => false

/-- The finite values of an image, in order: the effect of
`image = image[~cp.isnan(image)]` followed by `image = image[cp.isfinite(image)]`. -/
def finiteVals (l : List FVal) : List FVal :=
  (l.filter fun v => !v.isNan).filter FVal.isFinite

/-- The rational contents of the finite values of an image. -/
def finiteRats (l : List FVal) : List ℚ :=
  l.filterMap fun v => match v with
    | .fin q => some q
    | _ => none

/-! ## Degenerate-input handling of `threshold_li` (lines 636-653) -/

/-- Degenerate handling of `threshold_li` after NaN removal: an empty image
returns NaN; a constant image returns its value; an image with no finite
values (hence both infinities) returns `0.0`; otherwise iteration proceeds
(`none`). -/
def liEarlyAux : List FVal → Option FVal
  | [] => some .nan
  | v0 :: rest =>
    if (v0 :: rest).all fun v => feq v v0 then some v0
    else if (v0 :: rest).filter FVal.isFinite = [] then some (.fin 0)
    else none

/-- The early-return phase of `threshold_li` (source lines 636-653):
remove NaN values, then run the degenerate checks in source order. -/
def liEarly (image : List FVal) : Option FVal :=
  liEarlyAux (image.filter fun v => !v.isNan)

/-! ## List minimum / maximum / mean helpers (`cp.min`, `cp.max`, `cp.mean`) -/

/-- Minimum of a list of rationals (`cp.min`); `0` on the empty list, which
the source never reaches. -/
def listMin : List ℚ → ℚ
  | [] => 0
  | [x] => x
  | x :: y :: rest => min x (listMin (y :: rest))

/-- Maximum of a list of rationals (`cp.max`); `0` on the empty list, which
the source never reaches. -/
def listMax : List ℚ → ℚ
  | [] => 0
  | [x] => x
  | x :: y :: rest => max x (listMax (y :: rest))

/-- Arithmetic mean of a list of rationals (`cp.mean`). -/
def listMean (l : List ℚ) : ℚ := l.sum / l.length

/-- Consecutive differences of a list (`cp.diff`). -/
def diffs : List ℚ → List ℚ
  | x :: y :: rest => (y - x) :: diffs (y :: rest)
  | _ => []

/-- Sorted distinct values of a list (`cp.unique`). -/
def uniqueSorted (l : List ℚ) : List ℚ :=
  l.toFinset.sort (· ≤ ·)

/-- `cp.min(cp.diff(cp.unique(image)))`: the smallest gap between
consecutive distinct sorted values. -/
def minDiffUnique (l : List ℚ) : ℚ :=
  listMin (diffs (uniqueSorted l))

/-! ## Tolerance policy of `threshold_li` (lines 658-661) -/

/-- The tolerance used by the Li convergence test.  `tolerance or default`
in Python uses the default when the caller passed `None` or `0`; the default
is `0.5` for integer-kind images and half the smallest gap between distinct
sorted unique values of the shifted image otherwise (source lines 658-661). -/
def liTol (isIntKind : Bool) (tolerance : Option ℚ) (shifted : List ℚ) : ℚ :=
  let dflt : ℚ := if isIntKind then 1 / 2 else minDiffUnique shifted / 2
  match tolerance with
  | some t => if t = 0 then dflt else t
  | none => dflt

/-! ## Initial-guess resolution of `threshold_li` (lines 663-679) -/

/-- The `initial_guess` argument of `threshold_li`: `None`, a callable, a
scalar, or any other Python object (which triggers the `TypeError` branch). -/
inductive InitialGuess where
  | auto : InitialGuess
  | callable (f : List ℚ → ℚ) : InitialGuess
  | scalar (q : ℚ) : InitialGuess
  | other : InitialGuess

/-- Outcome of the part of `threshold_li` that runs before the iteration
loop: a terminal degenerate result, a proceed-to-loop state (starting
threshold, tolerance, image minimum, shifted image), or a raised error. -/
inductive LiPre where
  | result (v : FVal)
  | proceed (t0 tol imageMin : ℚ) (shifted : List ℚ)
  | valueError
  | typeError
deriving DecidableEq

/-- `cp.min(image)` over the finite values, taken after the degenerate
checks (source line 656). -/
def liImageMin (image : List FVal) : ℚ :=
  listMin (finiteRats image)

/-- `image -= image_min`: the background-shifted finite image. -/
def liShifted (image : List FVal) : List ℚ :=
  (finiteRats image).map fun q => q - liImageMin image

/-- Everything `threshold_li` does before entering the iteration loop
(source lines 636-683): degenerate-input handling, shift by the image
minimum, tolerance resolution, and initial-guess resolution, in source
order.  A scalar guess is validated to lie strictly within `(0, max)` of the
shifted range; a guess of any other type raises `TypeError`.  Neither error
branch produces a `proceed` state, so no iteration runs after an error. -/
def liPre (image : List FVal) (isIntKind : Bool) (tolerance : Option ℚ)
    (guess : InitialGuess) : LiPre :=
  match liEarly image with
  | some v => .result v
  | none =>
    let shifted := liShifted image
    let tol := liTol isIntKind tolerance shifted
    match guess with
    | .auto => .proceed (listMean shifted) tol (liImageMin image) shifted
    | .callable f => .proceed (f shifted) tol (liImageMin image) shifted
    | .scalar q =>
      let t0 := q - liImageMin image
      if 0 < t0 ∧ t0 < listMax shifted then
        .proceed t0 tol (liImageMin image) shifted
      else .valueError
    | .other => .typeError

/-! ## The Li iteration body for integer-kind images (lines 697-712) -/

/-- Machine epsilon of IEEE double precision, `np.finfo(float).eps`. -/
noncomputable def float64Eps : ℝ := 1 / 2 ^ (52 : ℕ)

/-- `eps = 100 * np.finfo(float).eps` (source line 704). -/
noncomputable def liLogEps : ℝ := 100 * float64Eps

/-- `np.average(values, weights)`: the weight-weighted mean of the first
components of a list of (value, weight) pairs. -/
noncomputable def weightedMean (pairs : List (ℝ × ℝ)) : ℝ :=
  ((pairs.map fun p => p.1 * p.2).sum) / ((pairs.map fun p => p.2).sum)

open Classical in
/-- One iteration of the integer-kind loop of `threshold_li` (source lines
697-712), translated from the code: `foreground = bin_centers > t_curr`,
`background = ~foreground`, weighted means via `np.average`, and
`t_next = (mean_back - mean_fore) / (log(mean_back + eps) - log(mean_fore + eps))`.
`bins` is the list of (bin center, histogram count) pairs. -/
noncomputable def liStepInt (bins : List (ℝ × ℝ)) (t : ℝ) : ℝ :=
  let foreground := bins.filter fun b => decide (t < b.1)
  let background := bins.filter fun b => !decide (t < b.1)
  let meanFore := weightedMean foreground
  let meanBack := weightedMean background
  (meanBack - meanFore) / (Real.log (meanBack + liLogEps) - Real.log (meanFore + liLogEps))

open Classical in
/-- The same iteration written from the specification sentence: partition
bins into background (`<= t_curr`) and foreground (`> t_curr`), compute each
partition's count-weighted mean bin-center, and update
`t_next = (mean_back - mean_fore) / (ln(mean_back + eps) - ln(mean_fore + eps))`
with `eps = 100 * machine epsilon` added inside each logarithm. -/
noncomputable def liStepIntSpec (bins : List (ℝ × ℝ)) (t : ℝ) : ℝ :=
  let parts := bins.partition fun b => decide (b.1 ≤ t)
  let background := parts.1
  let foreground := parts.2
  let meanBack := weightedMean background
  let meanFore := weightedMean foreground
  (meanBack - meanFore) / (Real.log (meanBack + liLogEps) - Real.log (meanFore + liLogEps))

/-! ## The sparse kernel of `_mean_std` (lines 966-968) -/

/-- `itertools.product(*tuple([(0, _w) for _w in w]))`: all corner offsets of
the window hyper-rectangle, each axis contributing either `0` or `w_i`. -/
def kernelIndices : List ℕ → List (List ℕ)
  | [] => [[]]
  | w :: ws =>
    ((kernelIndices ws).map fun t => 0 :: t) ++ ((kernelIndices ws).map fun t => w :: t)

/-- `[(-1) ** (image.ndim % 2 != np.sum(indices) % 2) for indices in kernel_indices]`
(source lines 967-968). -/
def kernelValues (w : List ℕ) : List ℤ :=
  (kernelIndices w).map fun idx => if w.length % 2 ≠ idx.sum % 2 then (-1 : ℤ) else 1

/-! ## N-dimensional images and the `_mean_std` pipeline (lines 945-986) -/

/-- A dense N-dimensional real-valued array: a shape together with the value
at each multi-index. -/
structure NdImage where
  shape : List ℕ
  data : List ℕ → ℝ

/-- Reflective boundary extension (`mode='reflect'` of `cp.pad`): maps an
out-of-range signed position into `[0, n)` by mirroring about the edges
without repeating them. -/
def reflectIndex (n : ℕ) (p : ℤ) : ℕ :=
  if n ≤ 1 then 0
  else
    let m : ℤ := 2 * (n : ℤ) - 2
    let q := p % m
    if q < (n : ℤ) then q.toNat else (m - q).toNat

/-- Three-way zip, used to combine shape, window and position lists. -/
def zip3With (f : α → β → γ → δ) : List α → List β → List γ → List δ
  | a :: as, b :: bs, c :: cs => f a b c :: zip3With f as bs cs
  | _, _, _ => []

/-- `cp.pad(image, tuple((k // 2 + 1, k // 2) for k in w), mode='reflect')`
(source lines 955-957). -/
def padReflect (img : NdImage) (w : List ℕ) : NdImage where
  shape := List.zipWith (fun s k => s + (k / 2 + 1) + k / 2) img.shape w
  data := fun p =>
    img.data (zip3With (fun s k pi => reflectIndex s ((pi : ℤ) - ((k : ℤ) / 2 + 1)))
      img.shape w p)

/-- Sum of `f` over the box of multi-indices componentwise strictly below the
given bound. -/
noncomputable def rectSum : (List ℕ → ℝ) → List ℕ → ℝ
  | f, [] => f []
  | f, n :: rest => Finset.sum (Finset.range n) fun j => rectSum (fun t => f (j :: t)) rest

/-- Modelled from the spec: `integral_image` (imported from
`..transform`, not among the sources under verification).  Per the data
model, the integral image has one extra element per axis and its element at
multi-index `i` is the sum of all source elements with indices strictly less
than `i` in every axis. -/
noncomputable def integralImage (src : NdImage) : NdImage where
  shape := src.shape.map fun s => s + 1
  data := fun i => rectSum src.data i

/-- Modelled from the spec: `_correlate_sparse` (imported from `._sparse`,
not among the sources under verification).  Per the component design, the
output has the unpadded image shape and each element equals the
inclusion-exclusion combination `sum of sign_c * integral[position + corner_c]`
over the sparse kernel. -/
noncomputable def correlateSparse (integral : NdImage) (outShape : List ℕ)
    (kidx : List (List ℕ)) (kval : List ℤ) : NdImage where
  shape := outShape
  data := fun x =>
    ((kidx.zip kval).map fun iv =>
      (iv.2 : ℝ) * integral.data (List.zipWith (· + ·) x iv.1)).sum

/-- The computational body of `_mean_std` (source lines 955-986) on an
already-validated window: pad reflectively, build integral images of the
image and of its square, correlate both through the sparse kernel, divide by
the window element count, and form `std` by clipping the raw variance
estimate at `0` before the square root. -/
noncomputable def meanStdCompute (img : NdImage) (w : List ℕ) : NdImage × NdImage :=
  let padded := padReflect img w
  let integral := integralImage padded
  let paddedSq : NdImage := { shape := padded.shape, data := fun p => padded.data p * padded.data p }
  let integralSq := integralImage paddedSq
  let kidx := kernelIndices w
  let kval := kernelValues w
  let total : ℝ := (w.map fun k => (k : ℝ)).prod
  let m0 := correlateSparse integral img.shape kidx kval
  let m : NdImage := { shape := m0.shape, data := fun x => m0.data x / total }
  let g0 := correlateSparse integralSq img.shape kidx kval
  let g2 : NdImage := { shape := g0.shape, data := fun x => g0.data x / total }
  (m, { shape := g2.shape, data := fun x => Real.sqrt (max (g2.data x - m.data x * m.data x) 0) })

/-- The window argument of `_mean_std`: a single integer or an iterable of
per-axis sizes. -/
inductive WindowSpec where
  | single (k : ℤ)
  | multi (ws : List ℤ)

/-- `(w,) * image.ndim` expansion of a scalar window. -/
def expandWindow (ndim : ℕ) : WindowSpec → List ℤ
  | .single k => List.replicate ndim k
  | .multi ws => ws

/-- Modelled from the spec: `_validate_window_size` (imported from
`._sparse`, not among the sources under verification).  Per the validation
collaborator contract it rejects even or non-positive window dimensions;
this predicate holds exactly when every dimension is odd and positive. -/
def validateWindowSize (ws : List ℤ) : Bool :=
  ws.all fun k => !(decide (k % 2 = 0)) && decide (0 < k)

/-- `_mean_std` (source lines 945-986): validate the window (the error names
the offending window), then run the integral-image pipeline. -/
noncomputable def meanStd (img : NdImage) (w : WindowSpec) :
    Except (List ℤ) (NdImage × NdImage) :=
  let ws := expandWindow img.shape.length w
  if validateWindowSize ws then .ok (meanStdCompute img (ws.map Int.toNat))
  else .error ws

/-- `threshold_niblack` (source lines 1048-1049): `m - k * s` pointwise over
the `_mean_std` fields. -/
noncomputable def thresholdNiblack (img : NdImage) (w : WindowSpec) (k : ℝ) :
    Except (List ℤ) NdImage :=
  (meanStd img w).map fun ms =>
    { shape := ms.1.shape, data := fun x => ms.1.data x - k * ms.2.data x }

/-- `threshold_sauvola` (source lines 1105-1109) with the dynamic range `r`
already resolved: `m * (1 + k * ((s / r) - 1))` pointwise. -/
noncomputable def thresholdSauvola (img : NdImage) (w : WindowSpec) (k r : ℝ) :
    Except (List ℤ) NdImage :=
  (meanStd img w).map fun ms =>
    { shape := ms.1.shape, data := fun x => ms.1.data x * (1 + k * ((ms.2.data x / r) - 1)) }

/-! ## `threshold_local` block-size validation (lines 228-235) -/

/-- The `block_size` argument of `threshold_local`: a scalar or a sequence. -/
inductive BlockSize where
  | scalar (b : ℤ)
  | seq (bs : List ℤ)
deriving DecidableEq

/-- Validation errors of `threshold_local`. -/
inductive LocalErr where
  | badLength
  | evenBlock (bs : List ℤ)
deriving DecidableEq

/-- The scalar expansion `(block_size,) * image.ndim` applied before the
evenness check. -/
def blockSizeExpand (ndim : ℕ) : BlockSize → List ℤ
  | .scalar b => List.replicate ndim b
  | .seq l => l

/-- The `block_size` validation of `threshold_local` (source lines 228-235):
a scalar is replicated to `ndim` components; a sequence of the wrong length
raises; any even component raises.  No non-positivity check exists here. -/
def thresholdLocalValidate (ndim : ℕ) (bs : BlockSize) : Except LocalErr (List ℤ) :=
  match bs with
  | .scalar b =>
    let t := List.replicate ndim b
    if t.any fun x => decide (x % 2 = 0) then .error (.evenBlock t) else .ok t
  | .seq l =>
    if l.length ≠ ndim then .error .badLength
    else if l.any fun x => decide (x % 2 = 0) then .error (.evenBlock l) else .ok l

/-! ## `apply_hysteresis_threshold` (lines 1149-1162), one-dimensional -/

/-- Helper for run labelling: walks the mask carrying whether the previous
pixel was inside a run and the number of runs seen so far. -/
def labelGo : Bool → ℕ → List Bool → List ℕ
  | _, _, [] => []
  | prev, c, b :: rest =>
    if b then
      (if prev then c else c + 1) :: labelGo true (if prev then c else c + 1) rest
    else 0 :: labelGo false c rest

/-- Modelled from the spec: the connected-component collaborator
(`cupyx.scipy.ndimage.label`, not among the sources under verification)
labels connected regions of a boolean mask; in one dimension these are the
maximal runs of `true`, numbered from `1`, with `0` for background. -/
def labelBools (mask : List Bool) : List ℕ :=
  labelGo false 0 mask

/-- `apply_hysteresis_threshold` (source lines 1149-1162) on one-dimensional
images with scalar thresholds: clip `low` to at most `high`, form both
masks, label the connected components of the low mask, and keep exactly the
labels that occur at some high-mask pixel. -/
def applyHysteresis (image : List ℚ) (low high : ℚ) : List Bool :=
  let lowClipped := min low high
  let maskLow := image.map fun v => decide (lowClipped < v)
  let maskHigh := image.map fun v => decide (high < v)
  let labels := labelBools maskLow
  let goodLabels : List ℕ :=
    (labels.zip maskHigh).filterMap fun p => if p.2 then some p.1 else none
  labels.map fun lab => decide (lab ∈ goodLabels)

/-! ## C1: the integer-kind Li iteration body matches the specified update rule -/

/-- C1: for every list of histogram (bin center, count) pairs and every
current threshold, the integer-kind iteration body of `threshold_li`
partitions the bin centers into background (`<= t_curr`) and foreground
(`> t_curr`), computes each partition's count-weighted mean bin-center, and
sets `t_next = (mean_back - mean_fore) / (ln(mean_back + eps) - ln(mean_fore + eps))`
with `eps = 100 * machine epsilon` added inside each logarithm: the code's
step (`liStepInt`) coincides with the update rule written from the
specification (`liStepIntSpec`). -/
theorem li_int_step_matches_spec (bins : List (ℝ × ℝ)) (t : ℝ) :
    liStepInt bins t = liStepIntSpec bins t := by
  have hf : (bins.filter fun b => decide (t < b.1)) =
      (bins.filter fun b => !(decide (b.1 ≤ t))) := by
    apply List.filter_congr
    intro a _
    rw [← decide_not]
    exact decide_eq_decide.mpr not_le.symm
  have hb : (bins.filter fun b => !(decide (t < b.1))) =
      (bins.filter fun b => decide (b.1 ≤ t)) := by
    apply List.filter_congr
    intro a _
    rw [← decide_not]
    exact decide_eq_decide.mpr not_lt
  simp only [liStepInt, liStepIntSpec, List.partition_eq_filter_filter, Function.comp_def]
  rw [hf, hb]

/-! ## C6: Niblack and Sauvola with `k = 0` return the local mean -/

/-- C6: for every image and every window specification, `threshold_niblack`
with `k = 0` returns exactly the local mean array produced by `_mean_std`,
and `threshold_sauvola` with `k = 0` returns that same local mean array
regardless of the value of `r`. -/
theorem niblack_sauvola_k0 (img : NdImage) (w : WindowSpec) :
    thresholdNiblack img w 0 = Except.map Prod.fst (meanStd img w) ∧
    ∀ r : ℝ, thresholdSauvola img w 0 r = Except.map Prod.fst (meanStd img w) := by
  constructor
  · unfold thresholdNiblack
    cases meanStd img w with
    | error e => rfl
    | ok ms =>
      simp only [Except.map]
      have hdata : (fun x => ms.1.data x - 0 * ms.2.data x) = ms.1.data := by
        funext x; ring
      rw [hdata]
  · intro r
    unfold thresholdSauvola
    cases meanStd img w with
    | error e => rfl
    | ok ms =>
      simp only [Except.map]
      have hdata : (fun x => ms.1.data x * (1 + 0 * ((ms.2.data x / r) - 1))) = ms.1.data := by
        funext x; ring
      rw [hdata]

/-! ## C10: hysteresis thresholding first clips `low` to at most `high` -/

/-- C10: for every image and every pair of thresholds,
`apply_hysteresis_threshold` first clips `low` to be at most `high`, so its
result with arguments `(low, high)` is identical to its result with
`(min(low, high), high)`; in particular a call with `low > high` behaves
exactly as if `low = high`. -/
theorem hysteresis_low_clipped (image : List ℚ) (low high : ℚ) :
    applyHysteresis image low high = applyHysteresis image (min low high) high := by
  unfold applyHysteresis
  rw [min_assoc, min_self]

/-- Sanity anchor, the specification's hysteresis scenario scaled by two to
stay on integer-valued rationals:
`apply_hysteresis_threshold([2,4,6,4,2,4,2,6,4], 3, 5)` yields
`[0,1,1,1,0,0,0,1,1]`. -/
theorem hysteresis_doc_example :
    applyHysteresis [2, 4, 6, 4, 2, 4, 2, 6, 4] 3 5 =
      [false, true, true, true, false, false, false, true, true] := by decide

/-! ## C2: structure of the sparse kernel built by `_mean_std` -/

theorem kernelIndices_length (w : List ℕ) :
    (kernelIndices w).length = 2 ^ w.length := by
  induction w with
  | nil => rfl
  | cons a ws ih =>
    simp [kernelIndices, List.length_append, ih, pow_succ]
    ring

theorem mem_kernelIndices {w : ℕ} {ws : List ℕ} {idx : List ℕ} :
    idx ∈ kernelIndices (w :: ws) ↔
      (∃ t ∈ kernelIndices ws, idx = 0 :: t) ∨ ∃ t ∈ kernelIndices ws, idx = w :: t := by
  simp [kernelIndices, List.mem_append, List.mem_map, eq_comm]

theorem kernelIndices_sum_parity {w : List ℕ} (hodd : ∀ x ∈ w, x % 2 = 1) :
    ∀ idx ∈ kernelIndices w,
      idx.sum % 2 = (idx.countP fun a => !decide (a = 0)) % 2 := by
  induction w with
  | nil =>
    intro idx hidx
    simp [kernelIndices] at hidx
    subst hidx
    rfl
  | cons a ws ih =>
    intro idx hidx
    have hodd' : ∀ x ∈ ws, x % 2 = 1 := fun x hx => hodd x (List.mem_cons_of_mem a hx)
    have ha : a % 2 = 1 := hodd a (List.mem_cons_self a ws)
    rcases mem_kernelIndices.mp hidx with ⟨t, ht, rfl⟩ | ⟨t, ht, rfl⟩
    · simp only [List.sum_cons, Nat.zero_add]
      rw [List.countP_cons_of_neg]
      · exact ih hodd' t ht
      · simp
    · have hane : a ≠ 0 := by omega
      have hsum := ih hodd' t ht
      rw [List.sum_cons, List.countP_cons_of_pos]
      · omega
      · simp [hane]

theorem kernelIndices_nodup {w : List ℕ} (hodd : ∀ x ∈ w, x % 2 = 1) :
    (kernelIndices w).Nodup := by
  induction w with
  | nil => simp [kernelIndices]
  | cons a ws ih =>
    have hodd' : ∀ x ∈ ws, x % 2 = 1 := fun x hx => hodd x (List.mem_cons_of_mem a hx)
    have ha : a ≠ 0 := by have := hodd a (List.mem_cons_self a ws); omega
    have hn := ih hodd'
    apply List.Nodup.append
    · exact hn.map fun t u h => by injection h
    · exact hn.map fun t u h => by injection h
    · intro x hx hx'
      rcases List.mem_map.mp hx with ⟨t, _, rfl⟩
      rcases List.mem_map.mp hx' with ⟨u, _, huv⟩
      injection huv.symm with h1 _
      exact ha h1.symm

/-- C2: for every valid odd window shape `w` over `ndim = w.length` axes,
the sparse kernel built by `_mean_std` has exactly `2 ^ ndim` terms, one per
distinct corner of the hyper-rectangle, and the sign of each term is `+1`
exactly when the parity of the number of "far" corner coordinates (the
nonzero entries of the corner offset) matches the parity of `ndim`, and `-1`
otherwise. -/
theorem sparse_kernel_structure (w : List ℕ) (hodd : ∀ x ∈ w, x % 2 = 1) :
    (kernelIndices w).length = 2 ^ w.length ∧
    (kernelIndices w).Nodup ∧
    kernelValues w = (kernelIndices w).map
      fun idx => if (idx.countP fun a => !decide (a = 0)) % 2 = w.length % 2
        then (1 : ℤ) else -1 := by
  refine ⟨kernelIndices_length w, kernelIndices_nodup hodd, ?_⟩
  unfold kernelValues
  apply List.map_congr_left
  intro idx hidx
  rw [kernelIndices_sum_parity hodd idx hidx]
  rcases eq_or_ne ((idx.countP fun a => !decide (a = 0)) % 2) (w.length % 2) with h | h
  · simp [h]
  · simp [h, Ne.symm h]

/-- Witness for C2 at the concrete window `[3, 5]`. -/
theorem sparse_kernel_structure_witness :
    (∀ x ∈ [3, 5], x % 2 = 1) ∧
    ((kernelIndices [3, 5]).length = 2 ^ ([3, 5] : List ℕ).length ∧
     (kernelIndices [3, 5]).Nodup ∧
     kernelValues [3, 5] = (kernelIndices [3, 5]).map
       fun idx => if (idx.countP fun a => !decide (a = 0)) % 2 = ([3, 5] : List ℕ).length % 2
         then (1 : ℤ) else -1) :=
  ⟨by decide, sparse_kernel_structure [3, 5] (by decide)⟩

/-! ## C3: the std field of `_mean_std` is non-negative -/

/-- C3: for every image and every window specification accepted by
`_mean_std`, the returned `std` array is element-wise non-negative, because
the raw variance estimate `g2 - m * m` is clipped at `0` before the square
root is taken.  (In this real-valued model every array element is a real
number, so finiteness is inherent to the carrier.) -/
theorem mean_std_std_nonneg (img : NdImage) (w : WindowSpec) (m s : NdImage)
    (h : meanStd img w = .ok (m, s)) (idx : List ℕ) : 0 ≤ s.data idx := by
  unfold meanStd at h
  by_cases hv : validateWindowSize (expandWindow img.shape.length w) = true
  · rw [if_pos hv] at h
    injection h with h
    have hs : s = (meanStdCompute img
        ((expandWindow img.shape.length w).map Int.toNat)).2 := by rw [h]
    rw [hs]
    exact Real.sqrt_nonneg _
  · rw [if_neg hv] at h
    exact Except.noConfusion h

/-- Witness for C3 at a concrete one-dimensional image and window `3`. -/
theorem mean_std_std_nonneg_witness :
    0 ≤ ((meanStdCompute ⟨[2], fun _ => 1⟩ [3]).2).data [0] :=
  mean_std_std_nonneg ⟨[2], fun _ => 1⟩ (.multi [3])
    (meanStdCompute ⟨[2], fun _ => 1⟩ [3]).1
    (meanStdCompute ⟨[2], fun _ => 1⟩ [3]).2 rfl [0]

/-! ## C8: validation of window and block-size specifications -/

/-- C8 counterexample: `threshold_local` does not reject a non-positive odd
`block_size` component — with `block_size = (-3,)` on a one-dimensional
image the validation succeeds instead of raising, refuting the claim that
any non-positive component raises a validation error. -/
theorem threshold_local_accepts_negative_odd :
    thresholdLocalValidate 1 (.seq [-3]) = .ok [-3] ∧ (-3 : ℤ) ≤ 0 :=
  ⟨rfl, by decide⟩

/-- C8 (amended): `threshold_local` raises a validation error exactly when
the `block_size` sequence length differs from `image.ndim` or some
(scalar-expanded) component is even — non-positive odd components are not
rejected — while `_mean_std`'s window validation (modelled from the spec)
fails exactly when some window component is even or non-positive. -/
theorem window_block_validation (ndim : ℕ) (bs : BlockSize) (ws : List ℤ) :
    ((∃ e, thresholdLocalValidate ndim bs = .error e) ↔
      (∃ l, bs = .seq l ∧ l.length ≠ ndim) ∨
        ∃ b ∈ blockSizeExpand ndim bs, b % 2 = 0) ∧
    (validateWindowSize ws = false ↔ ∃ k ∈ ws, k % 2 = 0 ∨ k ≤ 0) := by
  constructor
  · cases bs with
    | scalar b =>
      by_cases hc : (List.replicate ndim b).any (fun x => decide (x % 2 = 0)) = true
      · simp only [thresholdLocalValidate, blockSizeExpand, if_pos hc]
        simp only [List.any_eq_true, decide_eq_true_eq] at hc
        exact iff_of_true ⟨_, rfl⟩ (Or.inr hc)
      · simp only [thresholdLocalValidate, blockSizeExpand, if_neg hc]
        simp only [List.any_eq_true, decide_eq_true_eq] at hc
        push_neg at hc
        refine iff_of_false (by simp) ?_
        rintro (⟨l, hl, _⟩ | ⟨q, hq, h2⟩)
        · exact BlockSize.noConfusion hl
        · exact hc q hq h2
    | seq l =>
      by_cases hl : l.length = ndim
      · have hne : ¬ (l.length ≠ ndim) := fun h => h hl
        simp only [thresholdLocalValidate, blockSizeExpand, if_neg hne]
        by_cases hc : l.any (fun x => decide (x % 2 = 0)) = true
        · simp only [if_pos hc]
          simp only [List.any_eq_true, decide_eq_true_eq] at hc
          exact iff_of_true ⟨_, rfl⟩ (Or.inr hc)
        · simp only [if_neg hc]
          simp only [List.any_eq_true, decide_eq_true_eq] at hc
          push_neg at hc
          refine iff_of_false (by simp) ?_
          rintro (⟨l2, hl2, hlen⟩ | ⟨q, hq, h2⟩)
          · cases hl2
            exact hlen hl
          · exact hc q hq h2
      · simp only [thresholdLocalValidate, blockSizeExpand, if_pos hl]
        exact iff_of_true ⟨_, rfl⟩ (Or.inl ⟨l, rfl, hl⟩)
  · rw [validateWindowSize, Bool.eq_false_iff, Ne, List.all_eq_true]
    push_neg
    refine exists_congr fun k => and_congr_right fun _ => ?_
    constructor
    · intro h
      by_cases h2 : k % 2 = 0
      · exact Or.inl h2
      · right
        by_contra hpos
        exact h (by simp [h2, lt_of_not_le hpos])
    · intro h hcontra
      simp only [Bool.and_eq_true, Bool.not_eq_true', decide_eq_false_iff_not,
        decide_eq_true_eq] at hcontra
      rcases h with h | h
      · exact hcontra.1 h
      · omega

/-! ## C4: degenerate early returns of `threshold_li` -/

theorem feq_refl {v : FVal} (hv : v.isNan = false) : feq v v = true := by
  cases v <;> simp_all [feq, FVal.isNan]

theorem liEarlyAux_const (fl : List FVal) (v : FVal) (hne : fl ≠ [])
    (hall : ∀ x ∈ fl, x = v) (hv : v.isNan = false) : liEarlyAux fl = some v := by
  cases fl with
  | nil => exact absurd rfl hne
  | cons v0 rest =>
    have hv0 : v0 = v := hall v0 (List.mem_cons_self v0 rest)
    have hcond : ((v0 :: rest).all fun x => feq x v0) = true := by
      rw [List.all_eq_true]
      intro x hx
      rw [hall x hx, hv0]
      exact feq_refl hv
    simp only [liEarlyAux]
    rw [if_pos hcond, hv0]

theorem liEarlyAux_noFinite (fl : List FVal) (hp : FVal.posInf ∈ fl)
    (hn : FVal.negInf ∈ fl) (hf : ∀ x ∈ fl, x.isFinite = false) :
    liEarlyAux fl = some (FVal.fin 0) := by
  cases fl with
  | nil => cases hp
  | cons v0 rest =>
    have hallfalse : ¬ (((v0 :: rest).all fun x => feq x v0) = true) := by
      intro hall
      rw [List.all_eq_true] at hall
      have h1 : v0 = .posInf := by
        have := hall _ hp
        cases v0 <;> simp_all [feq]
      have h2 : v0 = .negInf := by
        have := hall _ hn
        cases v0 <;> simp_all [feq]
      rw [h1] at h2
      exact FVal.noConfusion h2
    have hfilter : (v0 :: rest).filter FVal.isFinite = [] := by
      rw [List.filter_eq_nil_iff]
      intro a ha
      simp [hf a ha]
    simp only [liEarlyAux]
    rw [if_neg hallfalse, if_pos hfilter]

/-- C4: `threshold_li` handles degenerate inputs by terminal early returns
checked in source order: an image that is empty after removing NaN values
yields NaN; an image whose remaining values all equal one value `v` yields
`v`; an image that after removing NaN has both `+inf` and `-inf` but no
finite values yields `0.0`. -/
theorem li_degenerate (l : List FVal) :
    ((l.filter fun v => !v.isNan) = [] → liEarly l = some FVal.nan) ∧
    (∀ v : FVal, (l.filter fun v => !v.isNan) ≠ [] →
        (∀ x ∈ l.filter fun v => !v.isNan, x = v) → liEarly l = some v) ∧
    (FVal.posInf ∈ (l.filter fun v => !v.isNan) →
      FVal.negInf ∈ (l.filter fun v => !v.isNan) →
      (∀ x ∈ l.filter fun v => !v.isNan, x.isFinite = false) →
      liEarly l = some (FVal.fin 0)) := by
  refine ⟨?_, ?_, ?_⟩
  · intro h
    unfold liEarly
    rw [h]
    rfl
  · intro v hne hall
    unfold liEarly
    apply liEarlyAux_const _ v hne hall
    obtain ⟨x, hx⟩ := List.exists_mem_of_ne_nil _ hne
    have hxv := hall x hx
    have hmem := List.mem_filter.mp hx
    rw [hxv] at hmem
    simpa using hmem.2
  · intro hp hn hf
    exact liEarlyAux_noFinite _ hp hn hf

/-- Witness for C4 on three concrete degenerate images: all NaN, constant
`5` (with a NaN to be removed), and a mix of `+inf` and `-inf` only. -/
theorem li_degenerate_witness :
    liEarly [FVal.nan] = some FVal.nan ∧
    liEarly [FVal.fin 5, FVal.nan, FVal.fin 5] = some (FVal.fin 5) ∧
    liEarly [FVal.posInf, FVal.negInf] = some (FVal.fin 0) :=
  ⟨(li_degenerate [FVal.nan]).1 (by decide),
   (li_degenerate [FVal.fin 5, FVal.nan, FVal.fin 5]).2.1 (FVal.fin 5)
     (by decide) (by decide),
   (li_degenerate [FVal.posInf, FVal.negInf]).2.2 (by decide) (by decide) (by decide)⟩

/-! ## C5: default tolerance of `threshold_li` -/

theorem listMin_cons_le_head (c : ℚ) (ds : List ℚ) : listMin (c :: ds) ≤ c := by
  cases ds with
  | nil => exact le_refl c
  | cons d ds => exact min_le_left _ _

theorem listMin_cons_le_tail (c : ℚ) (ds : List ℚ) (h : ds ≠ []) :
    listMin (c :: ds) ≤ listMin ds := by
  cases ds with
  | nil => exact absurd rfl h
  | cons d ds => exact min_le_right _ _

theorem listMin_le_of_mem : ∀ {l : List ℚ} {x : ℚ}, x ∈ l → listMin l ≤ x := by
  intro l
  induction l with
  | nil => intro x hx; cases hx
  | cons c ds ih =>
    intro x hx
    rcases List.mem_cons.mp hx with rfl | hx2
    · exact listMin_cons_le_head _ _
    · exact le_trans (listMin_cons_le_tail _ _ (List.ne_nil_of_mem hx2)) (ih hx2)

theorem listMin_diffs_le : ∀ {u : List ℚ}, u.Sorted (· < ·) →
    ∀ a ∈ u, ∀ b ∈ u, a < b → listMin (diffs u) ≤ b - a := by
  intro u
  induction u with
  | nil => intro _ a ha; cases ha
  | cons x u' ih =>
    intro hs a ha b hb hab
    have hx := (List.sorted_cons.mp hs).1
    have hs' := (List.sorted_cons.mp hs).2
    rcases List.mem_cons.mp hb with rfl | hb2
    · rcases List.mem_cons.mp ha with rfl | ha2
      · exact absurd hab (lt_irrefl _)
      · exact absurd hab (not_lt.mpr (le_of_lt (hx a ha2)))
    · rcases List.mem_cons.mp ha with rfl | ha2
      · cases u' with
        | nil => cases hb2
        | cons y rest =>
          have hyb : y ≤ b := by
            rcases List.mem_cons.mp hb2 with rfl | hb3
            · exact le_rfl
            · exact le_of_lt ((List.sorted_cons.mp hs').1 b hb3)
          have h1 : listMin (diffs (a :: y :: rest)) ≤ y - a := by
            simp only [diffs]
            exact listMin_cons_le_head _ _
          exact le_trans h1 (by linarith)
      · cases u' with
        | nil => cases ha2
        | cons y rest =>
          cases rest with
          | nil =>
            rw [List.mem_singleton] at ha2 hb2
            rw [ha2, hb2] at hab
            exact absurd hab (lt_irrefl _)
          | cons z rest2 =>
            have h1 : listMin (diffs (x :: y :: z :: rest2)) ≤
                listMin (diffs (y :: z :: rest2)) := by
              simp only [diffs]
              exact listMin_cons_le_tail _ _ (by simp [diffs])
            exact le_trans h1 (ih hs' a ha2 b hb2 hab)

theorem listMin_diffs_mem : ∀ {u : List ℚ}, u.Sorted (· < ·) → 2 ≤ u.length →
    ∃ a ∈ u, ∃ b ∈ u, a < b ∧ b - a = listMin (diffs u) := by
  intro u
  induction u with
  | nil => intro _ h2; simp at h2
  | cons x u' ih =>
    intro hs h2
    cases u' with
    | nil => simp at h2
    | cons y rest =>
      have hxy : x < y := (List.sorted_cons.mp hs).1 y (List.mem_cons_self y rest)
      have hs' := (List.sorted_cons.mp hs).2
      cases rest with
      | nil =>
        refine ⟨x, List.mem_cons_self _ _, y, ?_, hxy, ?_⟩
        · exact List.mem_cons_of_mem _ (List.mem_cons_self y [])
        · rfl
      | cons z rest2 =>
        have hmin : listMin (diffs (x :: y :: z :: rest2)) =
            min (y - x) (listMin (diffs (y :: z :: rest2))) := rfl
        rcases le_total (y - x) (listMin (diffs (y :: z :: rest2))) with hle | hge
        · refine ⟨x, List.mem_cons_self _ _, y,
            List.mem_cons_of_mem _ (List.mem_cons_self _ _), hxy, ?_⟩
          rw [hmin, min_eq_left hle]
        · obtain ⟨a, ha, b, hb, hab, heq⟩ := ih hs' (by simp)
          exact ⟨a, List.mem_cons_of_mem _ ha, b, List.mem_cons_of_mem _ hb, hab,
            by rw [hmin, min_eq_right hge, ← heq]⟩

theorem mem_uniqueSorted {l : List ℚ} {a : ℚ} : a ∈ uniqueSorted l ↔ a ∈ l := by
  simp [uniqueSorted, Finset.mem_sort, List.mem_toFinset]

theorem uniqueSorted_sorted (l : List ℚ) : (uniqueSorted l).Sorted (· < ·) :=
  l.toFinset.sort_sorted_lt

theorem two_le_length_of_mem_ne {α : Type} {l : List α} {a b : α} (ha : a ∈ l)
    (hb : b ∈ l) (hab : a ≠ b) : 2 ≤ l.length := by
  cases l with
  | nil => cases ha
  | cons x t =>
    cases t with
    | nil =>
      rw [List.mem_singleton] at ha hb
      exact absurd (ha.trans hb.symm) hab
    | cons y rest => simp

/-- C5: when no tolerance is supplied to `threshold_li`, the tolerance used
for the convergence test is `0.5` for integer-kind images; for
floating-point images with at least two distinct (shifted, finite) values it
is half the smallest difference between consecutive distinct sorted unique
values: twice the tolerance is realized as a gap between two distinct image
values and bounds every such gap from below. -/
theorem li_default_tolerance (shifted : List ℚ)
    (h : ∃ a ∈ shifted, ∃ b ∈ shifted, a ≠ b) :
    liTol true none shifted = 1 / 2 ∧
    (∃ a ∈ shifted, ∃ b ∈ shifted, a < b ∧ b - a = 2 * liTol false none shifted) ∧
    (∀ a ∈ shifted, ∀ b ∈ shifted, a < b → 2 * liTol false none shifted ≤ b - a) := by
  obtain ⟨a0, ha0, b0, hb0, hne⟩ := h
  have h2 : 2 ≤ (uniqueSorted shifted).length :=
    two_le_length_of_mem_ne (mem_uniqueSorted.mpr ha0) (mem_uniqueSorted.mpr hb0) hne
  have hsorted := uniqueSorted_sorted shifted
  have htwo : 2 * liTol false none shifted = minDiffUnique shifted := by
    show 2 * (minDiffUnique shifted / 2) = minDiffUnique shifted
    ring
  refine ⟨rfl, ?_, ?_⟩
  · obtain ⟨a, ha, b, hb, hab, heq⟩ := listMin_diffs_mem hsorted h2
    exact ⟨a, mem_uniqueSorted.mp ha, b, mem_uniqueSorted.mp hb, hab,
      by rw [htwo]; exact heq⟩
  · intro a ha b hb hab
    rw [htwo]
    exact listMin_diffs_le hsorted a (mem_uniqueSorted.mpr ha) b
      (mem_uniqueSorted.mpr hb) hab

/-- Witness for C5 at the concrete shifted image `[0, 4, 10]`. -/
theorem li_default_tolerance_witness :
    liTol true none [0, 4, 10] = 1 / 2 ∧
    (∃ a ∈ ([0, 4, 10] : List ℚ), ∃ b ∈ ([0, 4, 10] : List ℚ), a < b ∧
      b - a = 2 * liTol false none [0, 4, 10]) ∧
    (∀ a ∈ ([0, 4, 10] : List ℚ), ∀ b ∈ ([0, 4, 10] : List ℚ), a < b →
      2 * liTol false none [0, 4, 10] ≤ b - a) :=
  li_default_tolerance [0, 4, 10] (by decide)

/-! ## C7 and C9: initial-guess resolution errors of `threshold_li` -/

/-- C7: for every non-degenerate image, `threshold_li` raises `ValueError`
exactly when a literal scalar `initial_guess`, after shifting by the image
minimum, does not lie strictly within `(0, max)` of the shifted image range,
and raises `TypeError` exactly when `initial_guess` is neither `None`, nor
callable, nor a scalar; in both error cases the outcome is the error itself,
not a proceed-to-iteration state, so no iteration is performed. -/
theorem li_initial_guess_errors (image : List FVal) (isIntKind : Bool)
    (tolerance : Option ℚ) (g : InitialGuess) (h : liEarly image = none) :
    (liPre image isIntKind tolerance g = .valueError ↔
      ∃ q, g = .scalar q ∧
        ¬ (0 < q - liImageMin image ∧
           q - liImageMin image < listMax (liShifted image))) ∧
    (liPre image isIntKind tolerance g = .typeError ↔ g = .other) := by
  cases g with
  | auto => simp [liPre, h]
  | callable f => simp [liPre, h]
  | other => simp [liPre, h]
  | scalar q0 =>
    simp only [liPre, h]
    by_cases hc : 0 < q0 - liImageMin image ∧
        q0 - liImageMin image < listMax (liShifted image)
    · rw [if_pos hc]
      simp [hc]
      linarith [hc.1]
    · rw [if_neg hc]
      simp [hc]
      intro h1
      by_contra h2
      exact hc ⟨by linarith, lt_of_not_le h2⟩

/-- Witness for C7 at the concrete image `[0, 10]` with the out-of-range
scalar guess `100`. -/
theorem li_initial_guess_errors_witness :
    (liPre [FVal.fin 0, FVal.fin 10] true none (.scalar 100) = .valueError ↔
      ∃ q, (InitialGuess.scalar 100) = .scalar q ∧
        ¬ (0 < q - liImageMin [FVal.fin 0, FVal.fin 10] ∧
           q - liImageMin [FVal.fin 0, FVal.fin 10] <
             listMax (liShifted [FVal.fin 0, FVal.fin 10]))) ∧
    (liPre [FVal.fin 0, FVal.fin 10] true none (.scalar 100) = .typeError ↔
      (InitialGuess.scalar 100) = .other) :=
  li_initial_guess_errors [FVal.fin 0, FVal.fin 10] true none (.scalar 100) (by decide)

/-- C9: for every non-degenerate image and every callable `initial_guess`,
`threshold_li` uses the value the callable returns on the shifted image as
the starting threshold and proceeds to iterate, with no range validation —
so a callable returning an out-of-range value never raises the validation
error that a literal scalar would. -/
theorem li_callable_guess_unvalidated (image : List FVal) (isIntKind : Bool)
    (tolerance : Option ℚ) (f : List ℚ → ℚ) (h : liEarly image = none) :
    liPre image isIntKind tolerance (.callable f) =
      .proceed (f (liShifted image)) (liTol isIntKind tolerance (liShifted image))
        (liImageMin image) (liShifted image) := by
  simp only [liPre, h]

/-- Witness for C9 at the concrete image `[0, 10]` with a callable that
always returns `100`, far outside the shifted range `(0, 10)`. -/
theorem li_callable_guess_witness :
    liPre [FVal.fin 0, FVal.fin 10] true none (.callable fun _ => 100) =
      .proceed ((fun _ => (100 : ℚ)) (liShifted [FVal.fin 0, FVal.fin 10]))
        (liTol true none (liShifted [FVal.fin 0, FVal.fin 10]))
        (liImageMin [FVal.fin 0, FVal.fin 10]) (liShifted [FVal.fin 0, FVal.fin 10]) :=
  li_callable_guess_unvalidated [FVal.fin 0, FVal.fin 10] true none
    (fun _ => 100) (by decide)
